import Mathlib

/-!
# Verification of the `ros_ws` workspace extension (`src/rocker/ros_ws.py`)

This development gives a shallow embedding of the two core algorithms of the
`ros_ws` extension:

* the package-aware tree walker / file selector
  (`get_files_from_path` and `generate_ws_files` inside `RosWs.get_files`), and
* the manifest-driven dependency resolver (`RosWs.get_rosdeps`).

Modelling conventions:

* The filesystem is a POSIX tree (`FSEntry`): regular files carry their content
  as a single string (the text/binary distinction of the source collapses into
  one content channel, which no statement here depends on), directories carry a
  list of children in `os.listdir` order, and symbolic links are modelled as
  leaves whose targets exist and are not directories (so `os.path.isdir` is
  false and `os.path.exists` is true for them); directory-valued link targets
  are outside the model, matching the repository's declared non-goal of
  symlink resolution.
* Path strings are built exactly as the source builds them: the walk starts
  from the (already `expanduser`-expanded) workspace-root string and extends it
  with `os.path.join` at each child, with `os.path.sep = "/"`.
* Python's `str.replace`, used to compute the virtual in-context path of a
  file, is embedded as `pyReplace` (left-to-right, non-overlapping replacement
  of every occurrence).  The only divergence is the unreachable case of an
  empty pattern: the workspace root is non-empty whenever `get_files` runs,
  because `os.path.isdir('')` is false and the non-volume branch raises.
* XML manifest parsing itself (``xml.etree.ElementTree``) is external I/O; the
  resolver's aggregation loop (lines 148-170) is embedded over the list of
  per-file parse outcomes (`Manifest`), each recording either an
  `ET.ParseError` or the root element's direct children as `(tag, text)`
  pairs, which is all the loop inspects (`find`/`findall` on the root match
  direct children only).
-/

/-- A POSIX filesystem tree.  `file name content` is a regular file,
`dir name children` a directory with children in `os.listdir` order, and
`link name target` a symbolic link whose target exists and is not a
directory (so it is a leaf both for `os.path.isdir` and for the walk). -/
inductive FSEntry where
  | file (name : String) (content : String)
  | dir (name : String) (children : List FSEntry)
  | link (name : String) (target : String)

/-- The base name of an entry (`os.path.basename` of its path). -/
def FSEntry.name : FSEntry → String
  | .file n _ => n
  | .dir n _ => n
  | .link n _ => n

/-- `os.path.isdir` on an entry (symlink targets are non-directories). -/
def FSEntry.isDir : FSEntry → Bool
  | .dir _ _ => true
  | _ => false

/-- `os.path.sep` on the platform the extension runs on. -/
def os_sep : String := "/"

/-- `os.path.join a b` for a relative component `b` (directory-listing names
never start with a separator and are never empty). -/
def pathJoin (a b : String) : String :=
  if a = "" then b
  else if os_sep.data.isSuffixOf a.data then a ++ b
  else a ++ os_sep ++ b

/-- Join a whole chain of child names onto a base path. -/
def joinList (path : String) (ns : List String) : String :=
  ns.foldl pathJoin path

/-- Python's `s.replace(old, new)` on character lists: replace every
occurrence of `old`, scanning left to right without overlap.  (For the
unreachable `old = []` the function is the identity, see the module
docstring.) -/
def pyReplaceF : Nat → List Char → List Char → List Char → List Char
  | _, [], _, _ => []
  | 0, s, _, _ => s
  | fuel + 1, c :: rest, old, new =>
    if !old.isEmpty && old.isPrefixOf (c :: rest) then
      new ++ pyReplaceF fuel (rest.drop (old.length - 1)) old new
    else
      c :: pyReplaceF fuel rest old new

/-- Python's `s.replace(old, new)` on character lists: replace every
occurrence of `old`, scanning left to right without overlap; the fuel of
`pyReplaceF` is enough for the whole scan.  (For the unreachable `old = []`
the function is the identity, see the module docstring.) -/
def pyReplace (s old new : List Char) : List Char :=
  pyReplaceF s.length s old new

/-- `old` occurs as a contiguous substring of `s` (the occurrences that
Python's `str.replace` rewrites). -/
def occursIn (pat : List Char) : List Char → Bool
  | [] => pat.isEmpty
  | c :: rest => pat.isPrefixOf (c :: rest) || occursIn pat rest

/-- `os.path.exists(os.path.join(path, 'package.xml'))` for a directory with
children `cs`: some directory entry of any kind is named `package.xml`
(symlinks resolve to existing targets in this model). -/
def hasPkgEntry (cs : List FSEntry) : Bool :=
  cs.any (fun c => c.name == "package.xml")

mutual
/-- The inner generator `get_files_from_path` of `RosWs.get_files`
(`ros_ws.py` lines 72-87): walk `path`, pruning directories whose base name
is `.git`, propagating the `is_ros_package` flag downward once a directory
directly contains a `package.xml` entry, and yielding every leaf when
`only_ros_pacakges` is false, or only leaves below a package when it is true.
The source yields bare path strings; the pair returned here additionally
records the leaf entry the filesystem holds at that path (which the caller
recovers with `os.path.islink`/`open`). -/
def get_files_from_path (path : String) (e : FSEntry)
    (only_ros_pacakges : Bool) (is_ros_package : Bool) :
    List (String × FSEntry) :=
  match e with
  | .dir name children =>
    if name == ".git" then []
    else
      get_files_from_children path children only_ros_pacakges
        (if is_ros_package then true else hasPkgEntry children)
  | leaf =>
    if !only_ros_pacakges then [(path, leaf)]
    else if is_ros_package then [(path, leaf)]
    else []

/-- The `for basename in os.listdir(path)` loop of `get_files_from_path`. -/
def get_files_from_children (path : String) (cs : List FSEntry)
    (only_ros_pacakges : Bool) (is_ros_package : Bool) :
    List (String × FSEntry) :=
  match cs with
  | [] => []
  | c :: rest =>
    get_files_from_path (pathJoin path c.name) c only_ros_pacakges
        is_ros_package
      ++ get_files_from_children path rest only_ros_pacakges is_ros_package
end

/-- The virtual in-context path of a walked file:
`filepath.replace(os.path.expanduser(dir), "ros_ws_src" + os.path.sep)`
(`ros_ws.py` line 98), where `dir` is the already-expanded workspace root. -/
def virtualKey (dir filepath : String) : String :=
  String.mk (pyReplace filepath.data dir.data ("ros_ws_src" ++ os_sep).data)

/-- Modelled from the spec: the VirtualPath as the specification describes
it — replace only the *leading* occurrence of the expanded root path string
with `ros_ws_src` plus the path separator, leaving the remainder of the path
unchanged.  This definition exists solely to be compared against the
source-derived `virtualKey`. -/
def virtualKeySpec (dir filepath : String) : String :=
  if dir.data.isPrefixOf filepath.data then
    String.mk (("ros_ws_src" ++ os_sep).data ++ filepath.data.drop dir.data.length)
  else filepath

/-- The symlink diagnostic of `generate_ws_files` (`ros_ws.py` line 94). -/
def linkWarning (filepath target : String) : String :=
  "Warning: Could not copy symlink " ++ filepath ++ " -> " ++ target

/-- Python `dict` assignment `d[k] = v`: an existing key keeps its position
and gets the new value, a fresh key is appended. -/
def dictInsert : List (String × String) → String → String → List (String × String)
  | [], k, v => [(k, v)]
  | (k', v') :: rest, k, v =>
    if k' = k then (k', v) :: rest else (k', v') :: dictInsert rest k v

/-- One iteration of the `for filepath in get_files_from_path(...)` loop of
`generate_ws_files`: symlinks are skipped with a diagnostic, other leaves are
read (text or binary, a distinction collapsed into the single content string)
and stored under their `virtualKey`. -/
def wsStep (dir : String) (acc : List (String × String) × List String)
    (pe : String × FSEntry) : List (String × String) × List String :=
  match pe.2 with
  | .link _ target => (acc.1, acc.2 ++ [linkWarning pe.1 target])
  | .file _ content => (dictInsert acc.1 (virtualKey dir pe.1) content, acc.2)
  | .dir _ _ => acc

/-- `generate_ws_files` of `RosWs.get_files` (`ros_ws.py` lines 89-103):
returns the context map `ws_files` together with the emitted symlink
diagnostics, `dir` being the already-expanded workspace root. -/
def generate_ws_files (dir : String) (root : FSEntry)
    (only_ros_pacakges : Bool) : List (String × String) × List String :=
  (get_files_from_path dir root only_ros_pacakges false).foldl
    (wsStep dir) ([], [])

mutual
/-- The walk of `get_files_from_path` at the level of relative name chains:
`walkNames o i e` lists, for each yielded leaf, the chain of child names
leading from `e` to it (so the yielded path string is `joinList path` of the
chain — see `get_files_map_fst`). -/
def walkNames (only_ros_pacakges is_ros_package : Bool) : FSEntry → List (List String)
  | .dir name children =>
    if name == ".git" then []
    else
      walkNamesList only_ros_pacakges
        (if is_ros_package then true else hasPkgEntry children) children
  | _ =>
    if !only_ros_pacakges then [[]]
    else if is_ros_package then [[]]
    else []

/-- List companion of `walkNames`. -/
def walkNamesList (only_ros_pacakges is_ros_package : Bool) :
    List FSEntry → List (List String)
  | [] => []
  | c :: rest =>
    (walkNames only_ros_pacakges is_ros_package c).map (fun ns => c.name :: ns)
      ++ walkNamesList only_ros_pacakges is_ros_package rest
end

mutual
/-- `reachesLeaf e ns`: the name chain `ns` addresses a leaf (file or
symlink) below `e`, and no directory on the way — `e` included — is named
`.git`.  These are exactly the leaves the walk can reach. -/
def reachesLeaf : FSEntry → List String → Bool
  | .file _ _, [] => true
  | .link _ _, [] => true
  | .dir nm cs, n :: ns => !(nm == ".git") && reachesLeafIn cs n ns
  | _, _ => false

/-- `reachesLeafIn cs n ns`: some child named `n` reaches a leaf via `ns`. -/
def reachesLeafIn : List FSEntry → String → List String → Bool
  | [], _, _ => false
  | c :: rest, n, ns =>
    (c.name == n && reachesLeaf c ns) || reachesLeafIn rest n ns
end

mutual
/-- `inPkg e ns`: some directory on the chain `ns` (from `e` down to the
leaf's parent) directly contains a `package.xml` entry — the condition under
which the walker's inherited `is_ros_package` flag is true at the leaf. -/
def inPkg : FSEntry → List String → Bool
  | .dir _ cs, n :: ns => hasPkgEntry cs || inPkgIn cs n ns
  | _, _ => false

/-- List companion of `inPkg`. -/
def inPkgIn : List FSEntry → String → List String → Bool
  | [], _, _ => false
  | c :: rest, n, ns => (if c.name == n then inPkg c ns else false) || inPkgIn rest n ns
end

mutual
/-- A tree is valid when sibling names never repeat, as in a real
filesystem. -/
def validTree : FSEntry → Bool
  | .dir _ cs => decide ((cs.map FSEntry.name).Nodup) && validTreeList cs
  | _ => true

/-- List companion of `validTree`. -/
def validTreeList : List FSEntry → Bool
  | [] => true
  | c :: rest => validTree c && validTreeList rest
end

/-- `'package.xml' in files` for an `os.walk` step: some *non-directory*
child is named `package.xml` (`os.walk` lists directories separately in
`dirs`). -/
def hasManifestFile (cs : List FSEntry) : Bool :=
  cs.any (fun c => !c.isDir && c.name == "package.xml")

mutual
/-- The manifest-collection loop of `RosWs.get_rosdeps` (`ros_ws.py` lines
142-146): `os.walk` the expanded workspace root — with no pruning — and
record `os.path.join(root, 'package.xml')` for every directory whose *file*
list contains `package.xml`. -/
def collect_package_xmls (path : String) (e : FSEntry) : List String :=
  match e with
  | .dir _ children =>
    (if hasManifestFile children then [pathJoin path "package.xml"] else [])
      ++ collect_package_xmls_list path children
  | _ => []

/-- Recursion of `os.walk` into the subdirectories, in listing order. -/
def collect_package_xmls_list (path : String) : List FSEntry → List String
  | [] => []
  | c :: rest =>
    (if c.isDir then collect_package_xmls (pathJoin path c.name) c else [])
      ++ collect_package_xmls_list path rest
end

/-- One direct child element of a manifest's root element, as seen through
`ElementTree`: its tag and its `.text` (`none` when the element has no
text). -/
structure XmlElem where
  tag : String
  text : Option String

/-- The outcome of `ET.parse` on one collected `package.xml` path: either an
`ET.ParseError`, or the parsed root element given by its direct children
(all that `root.find`/`root.findall` inspect). -/
inductive Manifest where
  | malformed (path : String)
  | parsed (path : String) (elems : List XmlElem)

/-- Python whitespace for `str.strip()`. -/
def isPySpace (c : Char) : Bool :=
  c == ' ' || c == '\t' || c == '\n' || c == '\r' || c == '\x0b' || c == '\x0c'

/-- Python `str.strip()`: drop leading and trailing whitespace. -/
def pyStrip (s : String) : String :=
  String.mk (((s.data.dropWhile isPySpace).reverse.dropWhile isPySpace).reverse)

/-- `root.find('name').text.strip()` (`ros_ws.py` line 156): `none` when the
step raises `AttributeError` — no `name` child (`find` returns `None`) or a
`name` child with no text (`.strip()` on `None`). -/
def nameText (elems : List XmlElem) : Option String :=
  match elems.find? (fun e => e.tag == "name") with
  | none => none
  | some e =>
    match e.text with
    | none => none
    | some t => some (pyStrip t)

/-- The five recognized dependency tags (`ros_ws.py` line 159). -/
def depend_tags : List String :=
  ["depend", "build_depend", "run_depend", "exec_depend", "test_depend"]

/-- Code-point lexicographic `≤` on character lists: exactly the order
Python's `sorted` uses on strings. -/
def charsLe : List Char → List Char → Bool
  | [], _ => true
  | _ :: _, [] => false
  | a :: as, b :: bs =>
    if a < b then true
    else if b < a then false
    else charsLe as bs

/-- Python's string order. -/
def strLe (a b : String) : Bool := charsLe a.data b.data

/-- Python's string order as a relation, for `Finset.sort` and
`List.Sorted`. -/
def strOrder (a b : String) : Prop := strLe a b = true

instance : DecidableRel strOrder := fun a b =>
  inferInstanceAs (Decidable (strLe a b = true))

/-- The body of the `for dep in root.findall(tag)` loop (`ros_ws.py` lines
162-164) acting on the Python set `deps`, modelled as a duplicate-free list
with `set.add = List.insert`: an element whose `.text` is truthy (not `None`
and not the empty string) adds its stripped text. -/
def addDep (acc : List String) (e : XmlElem) : List String :=
  match e.text with
  | none => acc
  | some t => if t = "" then acc else acc.insert (pyStrip t)

/-- The name an element contributes to `deps`, if any. -/
def depText (e : XmlElem) : Option String :=
  e.text.bind (fun t => if t = "" then none else some (pyStrip t))

/-- The loop `for tag in depend_tags: for dep in root.findall(tag): ...`
(`ros_ws.py` lines 160-164) over the set `deps`. -/
def addDeps (elems : List XmlElem) (deps : List String) : List String :=
  depend_tags.foldl (fun acc tag =>
    (elems.filter (fun e => e.tag == tag)).foldl addDep acc) deps

/-- Specification-side value of the `addDeps` loop: the set of dependency
names a parsed manifest declares. -/
def manifestDeps (elems : List XmlElem) : Finset String :=
  ((depend_tags.flatMap (fun tag => elems.filter (fun e => e.tag == tag))).filterMap
    depText).toFinset

/-- The diagnostic of the `except ET.ParseError` handler (`ros_ws.py` line
166). -/
def parseWarning (package_xml : String) : String :=
  "Warning: Could not parse " ++ package_xml

/-- The `for package_xml in package_xmls` loop of `RosWs.get_rosdeps`
(`ros_ws.py` lines 151-167) over the per-file parse outcomes, starting from
the accumulated `(deps, src_packages)` pair (Python sets, modelled as
duplicate-free lists with `set.add = List.insert`).  Returns the final pair
— or, for the uncaught `AttributeError` raised on a manifest without a
usable `name` (only `ET.ParseError` is caught), the path of the offending
manifest — together with the parse warnings printed before the loop
ended. -/
def runManifests : List Manifest → List String × List String →
    Except String (List String × List String) × List String
  | [], st => (.ok st, [])
  | .malformed p :: rest, st =>
    let r := runManifests rest st
    (r.1, parseWarning p :: r.2)
  | .parsed p elems :: rest, st =>
    match nameText elems with
    | none => (.error p, [])
    | some nm => runManifests rest (addDeps elems st.1, st.2.insert nm)

/-- `RosWs.get_rosdeps` after manifest collection (`ros_ws.py` lines
148-170): run the aggregation loop from empty sets and return
`sorted(deps - src_packages)` (Python's `sorted` on distinct strings is the
unique `strOrder`-ascending enumeration, realized by insertion sort); an
uncaught `AttributeError` aborts the whole call. -/
def get_rosdeps_core (ms : List Manifest) : Except String (List String) :=
  match (runManifests ms (∅, ∅)).1 with
  | .error e => .error e
  | .ok st => .ok (List.insertionSort strOrder (st.1.filter (fun d => !st.2.elem d)))

/-- The diagnostics printed by a `get_rosdeps` run. -/
def get_rosdeps_warnings (ms : List Manifest) : List String :=
  (runManifests ms (∅, ∅)).2

/-- Union of the dependency names declared by the successfully parsed
manifests. -/
def declaredDeps : List Manifest → Finset String
  | [] => ∅
  | .malformed _ :: rest => declaredDeps rest
  | .parsed _ elems :: rest => manifestDeps elems ∪ declaredDeps rest

/-- Union of the local package names declared by the successfully parsed
manifests (those with a usable `name`). -/
def declaredNames : List Manifest → Finset String
  | [] => ∅
  | .malformed _ :: rest => declaredNames rest
  | .parsed _ elems :: rest =>
    match nameText elems with
    | none => declaredNames rest
    | some nm => insert nm (declaredNames rest)

/-- Does this parse outcome correspond to a manifest that parsed but has no
usable `name` element? -/
def namelessParsed : Manifest → Bool
  | .malformed _ => false
  | .parsed _ elems => (nameText elems).isNone

instance : IsTrans String strOrder := by
  have go : ∀ as bs cs : List Char,
      charsLe as bs = true → charsLe bs cs = true → charsLe as cs = true := by
    intro as
    induction as with
    | nil => intro bs cs _ _; rfl
    | cons a as ih =>
      intro bs cs h1 h2
      rcases bs with _ | ⟨b, bs⟩
      · simp [charsLe] at h1
      · rcases cs with _ | ⟨c, cs⟩
        · simp [charsLe] at h2
        · by_cases hab : a < b
          · by_cases hbc : b < c
            · simp [charsLe, lt_trans hab hbc]
            · by_cases hcb : c < b
              · simp [charsLe, hbc, hcb] at h2
              · have hbc' : b = c := le_antisymm (not_lt.mp hcb) (not_lt.mp hbc)
                rw [← hbc']
                simp [charsLe, hab]
          · by_cases hba : b < a
            · simp [charsLe, hab, hba] at h1
            · have hab' : a = b := le_antisymm (not_lt.mp hba) (not_lt.mp hab)
              simp [charsLe, hab, hba] at h1
              by_cases hbc : b < c
              · simp [charsLe, hab' ▸ hbc]
              · by_cases hcb : c < b
                · simp [charsLe, hbc, hcb] at h2
                · have hbc' : b = c := le_antisymm (not_lt.mp hcb) (not_lt.mp hbc)
                  simp [charsLe, hbc, hcb] at h2
                  subst hab'
                  subst hbc'
                  simp [charsLe, ih bs cs h1 h2]
  exact ⟨fun a b c h1 h2 => go a.data b.data c.data h1 h2⟩

instance : IsAntisymm String strOrder := by
  have go : ∀ as bs : List Char,
      charsLe as bs = true → charsLe bs as = true → as = bs := by
    intro as
    induction as with
    | nil =>
      intro bs h1 h2
      rcases bs with _ | ⟨b, bs⟩
      · rfl
      · simp [charsLe] at h2
    | cons a as ih =>
      intro bs h1 h2
      rcases bs with _ | ⟨b, bs⟩
      · simp [charsLe] at h1
      · by_cases hab : a < b
        · have hba : ¬ b < a := lt_asymm hab
          simp [charsLe, hab, hba] at h2
        · by_cases hba : b < a
          · simp [charsLe, hab, hba] at h1
          · have hab' : a = b := le_antisymm (not_lt.mp hba) (not_lt.mp hab)
            simp [charsLe, hab, hba] at h1 h2
            rw [hab', ih bs h1 h2]
  refine ⟨fun a b h1 h2 => ?_⟩
  have h := go a.data b.data h1 h2
  cases a
  cases b
  exact congrArg String.mk h

instance : IsTotal String strOrder := by
  have go : ∀ as bs : List Char,
      charsLe as bs = true ∨ charsLe bs as = true := by
    intro as
    induction as with
    | nil => intro bs; left; rfl
    | cons a as ih =>
      intro bs
      rcases bs with _ | ⟨b, bs⟩
      · right; rfl
      · by_cases hab : a < b
        · left; simp [charsLe, hab]
        · by_cases hba : b < a
          · right; simp [charsLe, hba]
          · rcases ih bs with h | h
            · left; simp [charsLe, hab, hba, h]
            · right; simp [charsLe, hab, hba, h]
  exact ⟨fun a b => go a.data b.data⟩

/-- The spec's two-package scenario: `pkg_a` depends on `pkg_b` and
`libfoo`, `pkg_b` depends on `libbar`. -/
def exPkgA : Manifest :=
  .parsed "ws/pkg_a/package.xml"
    [⟨"name", some "pkg_a"⟩, ⟨"depend", some "pkg_b"⟩, ⟨"depend", some "libfoo"⟩]

/-- Second package of the spec's scenario. -/
def exPkgB : Manifest :=
  .parsed "ws/pkg_b/package.xml"
    [⟨"name", some "pkg_b"⟩, ⟨"depend", some "libbar"⟩]

/-- A manifest that parses as XML but has no `name` element. -/
def exNoName : Manifest :=
  .parsed "ws/broken/package.xml" [⟨"depend", some "libqux"⟩]

/-- A manifest whose `depend` element holds whitespace-only text. -/
def exBlankDep : Manifest :=
  .parsed "ws/blank/package.xml" [⟨"name", some "blankpkg"⟩, ⟨"depend", some " "⟩]

/-- A workspace in which the expanded root path string `"/ws"` reoccurs
inside a file's path (`/ws/ws/f`). -/
def exRootReoccursTree : FSEntry := .dir "ws" [.dir "ws" [.file "f" "x"]]

/-- A workspace (root path `"a"`) with two distinct files whose virtual
paths collide: `a/ab` and `a/ros_ws_src/b`. -/
def exCollisionTree : FSEntry :=
  .dir "a" [.file "ab" "1", .dir "ros_ws_src" [.file "b" "2"]]

/-- A workspace (root path `"r"`) exercising the selection rules: package
`pkg` (manifest file, a `.git` subdirectory with a file, a source file), a
directory `odd` whose `package.xml` entry is itself a directory, and a loose
file at the root. -/
def exMixedTree : FSEntry :=
  .dir "r"
    [.dir "pkg"
      [.file "package.xml" "m", .dir ".git" [.file "config" "c"],
       .file "src1" "s"],
     .dir "odd" [.dir "package.xml" [], .file "f2" "z"],
     .file "loose" "l"]

/-- A workspace (root path `"ws"`) with one package holding a manifest, a
symbolic link and a regular file. -/
def exSymlinkTree : FSEntry :=
  .dir "ws"
    [.dir "pkg" [.file "package.xml" "x", .link "lnk" "tgt", .file "a" "1"]]

/-- A workspace (root path `"ws"`) whose only `package.xml` entry is a
directory. -/
def exPkgDirTree : FSEntry :=
  .dir "ws" [.dir "odd" [.dir "package.xml" [], .file "f2" "z"]]

/-- The diagnostic a walked entry produces in `generate_ws_files`: symlinks
yield their warning, other entries none. -/
def warnOf (pe : String × FSEntry) : Option String :=
  match pe.2 with
  | .link _ target => some (linkWarning pe.1 target)
  | _ => none

theorem pyReplaceF_fuel (old new : List Char) :
    ∀ fuel fuel' s, s.length ≤ fuel → s.length ≤ fuel' →
      pyReplaceF fuel s old new = pyReplaceF fuel' s old new := by
  intro fuel
  induction fuel with
  | zero =>
    intro fuel' s hs _
    rcases s with _ | ⟨c, rest⟩
    · cases fuel' <;> rfl
    · simp at hs
  | succ fuel ih =>
    intro fuel' s hs hs'
    rcases s with _ | ⟨c, rest⟩
    · cases fuel' <;> rfl
    · rcases fuel' with _ | fuel'
      · simp at hs'
      · rw [pyReplaceF, pyReplaceF]
        by_cases hg : (!old.isEmpty && old.isPrefixOf (c :: rest)) = true
        · rw [if_pos hg, if_pos hg]
          congr 1
          apply ih
          · have := List.length_drop (old.length - 1) rest
            simp only [this]
            simp at hs
            omega
          · have := List.length_drop (old.length - 1) rest
            simp only [this]
            simp at hs'
            omega
        · rw [if_neg hg, if_neg hg]
          congr 1
          apply ih
          · simp at hs; omega
          · simp at hs'; omega

theorem isPrefixOf_append (l t : List Char) : l.isPrefixOf (l ++ t) = true := by
  induction l with
  | nil => simp [List.isPrefixOf]
  | cons a as ih =>
    simp only [List.cons_append, List.isPrefixOf, ih, Bool.and_true]
    simp

theorem pyReplaceF_of_not_occurs (old new : List Char) :
    ∀ fuel s, occursIn old s = false → pyReplaceF fuel s old new = s := by
  intro fuel
  induction fuel with
  | zero =>
    intro s _
    rcases s with _ | ⟨c, rest⟩ <;> rfl
  | succ fuel ih =>
    intro s h
    rcases s with _ | ⟨c, rest⟩
    · rfl
    · rw [occursIn] at h
      simp only [Bool.or_eq_false_iff] at h
      rw [pyReplaceF]
      simp [h.1, ih rest h.2]

/-- Replacing a pattern that never occurs is the identity. -/
theorem pyReplace_of_not_occurs (s old new : List Char)
    (h : occursIn old s = false) : pyReplace s old new = s :=
  pyReplaceF_of_not_occurs old new s.length s h

/-- The leading occurrence of the pattern is replaced, and scanning resumes
after it. -/
theorem pyReplace_append (old rest new : List Char) (h : old ≠ []) :
    pyReplace (old ++ rest) old new = new ++ pyReplace rest old new := by
  rcases old with _ | ⟨o, os⟩
  · exact absurd rfl h
  · rw [pyReplace, List.cons_append]
    have hlen : (o :: (os ++ rest)).length = (os ++ rest).length + 1 := by
      simp
    rw [hlen, pyReplaceF]
    have hpre : (o :: os).isPrefixOf (o :: (os ++ rest)) = true := by
      rw [← List.cons_append]
      exact isPrefixOf_append _ _
    simp only [hpre, List.isEmpty_cons, Bool.not_false, Bool.true_and, if_true]
    congr 1
    have hdrop : (os ++ rest).drop ((o :: os).length - 1) = rest := by
      simp
    rw [hdrop, pyReplace]
    apply pyReplaceF_fuel
    · simp
    · exact Nat.le_refl _

theorem addDep_nodup (acc : List String) (e : XmlElem) (h : acc.Nodup) :
    (addDep acc e).Nodup := by
  rw [addDep]
  cases e.text with
  | none => exact h
  | some t =>
    by_cases ht : t = ""
    · simp [ht, h]
    · simp [ht, h.insert]

theorem foldl_addDep_nodup : ∀ (es : List XmlElem) (acc : List String),
    acc.Nodup → (es.foldl addDep acc).Nodup := by
  intro es
  induction es with
  | nil => intro acc h; exact h
  | cons e es ih => intro acc h; exact ih _ (addDep_nodup acc e h)

theorem addDeps_nodup (elems : List XmlElem) :
    ∀ (tags : List String) (deps : List String), deps.Nodup →
      (tags.foldl (fun acc tag =>
        (elems.filter (fun e => e.tag == tag)).foldl addDep acc) deps).Nodup := by
  intro tags
  induction tags with
  | nil => intro deps h; exact h
  | cons tag tags ih => intro deps h; exact ih _ (foldl_addDep_nodup _ _ h)

theorem foldl_addDep_toFinset : ∀ (es : List XmlElem) (acc : List String),
    (es.foldl addDep acc).toFinset = acc.toFinset ∪ (es.filterMap depText).toFinset := by
  intro es
  induction es with
  | nil => intro acc; simp
  | cons e es ih =>
    intro acc
    rw [List.foldl_cons, ih, List.filterMap_cons]
    cases he : e.text with
    | none => simp [addDep, depText, he]
    | some t =>
      by_cases ht : t = ""
      · simp [addDep, depText, he, ht]
      · simp only [addDep, depText, he, ht, if_neg ht, Option.some_bind]
        ext x
        simp [List.mem_insert_iff]
        tauto

theorem addDeps_toFinset (elems : List XmlElem) (deps : List String) :
    (addDeps elems deps).toFinset = deps.toFinset ∪ manifestDeps elems := by
  rw [addDeps, manifestDeps]
  generalize depend_tags = tags
  induction tags generalizing deps with
  | nil => simp
  | cons tag tags ih =>
    rw [List.foldl_cons, ih, List.flatMap_cons, List.filterMap_append,
      List.toFinset_append, foldl_addDep_toFinset]
    ext x
    simp
    try tauto

theorem runManifests_ok : ∀ (ms : List Manifest) (st st' : List String × List String),
    (runManifests ms st).1 = .ok st' →
    st'.1.toFinset = st.1.toFinset ∪ declaredDeps ms ∧
    st'.2.toFinset = st.2.toFinset ∪ declaredNames ms ∧
    (st.1.Nodup → st'.1.Nodup) ∧ (st.2.Nodup → st'.2.Nodup) := by
  intro ms
  induction ms with
  | nil =>
    intro st st' h
    rw [runManifests] at h
    simp only [Except.ok.injEq] at h
    subst h
    simp [declaredDeps, declaredNames]
  | cons m rest ih =>
    intro st st' h
    cases m with
    | malformed p =>
      rw [runManifests] at h
      simp only at h
      obtain ⟨h1, h2, h3, h4⟩ := ih st st' h
      rw [declaredDeps, declaredNames]
      exact ⟨h1, h2, h3, h4⟩
    | parsed p elems =>
      rw [runManifests] at h
      cases hn : nameText elems with
      | none => rw [hn] at h; simp at h
      | some nm =>
        rw [hn] at h
        obtain ⟨h1, h2, h3, h4⟩ := ih _ _ h
        refine ⟨?_, ?_, ?_, ?_⟩
        · rw [declaredDeps, h1, addDeps_toFinset]
          ext x
          simp
          try tauto
        · rw [declaredNames, hn, h2]
          ext x
          simp [List.mem_insert_iff]
          try tauto
        · intro hnd
          apply h3
          rw [addDeps]
          exact addDeps_nodup elems depend_tags st.1 hnd
        · intro hnd
          exact h4 hnd.insert

/-- C1: whenever the dependency resolver returns (its loop raises no
uncaught error), the returned closure is exactly the set difference
`(union of dependencies declared in successfully parsed manifests) −
(union of locally declared package names)`, listed without duplicates in
ascending code-point-lexicographic order — `Finset.sort strOrder` of the
difference.  The spec's two-package scenario is checked in the witness. -/
theorem c1_resolver_sorted_set_difference (ms : List Manifest) (l : List String)
    (h : get_rosdeps_core ms = .ok l) :
    l = Finset.sort strOrder (declaredDeps ms \ declaredNames ms) ∧
    l.Sorted strOrder ∧ l.Nodup := by
  rw [get_rosdeps_core] at h
  cases hr : (runManifests ms (∅, ∅)).1 with
  | error e => rw [hr] at h; simp at h
  | ok st =>
    rw [hr] at h
    simp only [Except.ok.injEq] at h
    subst h
    obtain ⟨h1, h2, h3, h4⟩ := runManifests_ok ms _ _ hr
    have e1 : ∀ x, x ∈ st.1 ↔ x ∈ declaredDeps ms := by
      intro x
      rw [← List.mem_toFinset, h1]
      simp
    have e2 : ∀ x, x ∈ st.2 ↔ x ∈ declaredNames ms := by
      intro x
      rw [← List.mem_toFinset, h2]
      simp
    have hLnodup : (st.1.filter (fun d => !st.2.elem d)).Nodup :=
      (h3 (by simp)).filter _
    have hLfin : (st.1.filter (fun d => !st.2.elem d)).toFinset
        = declaredDeps ms \ declaredNames ms := by
      ext x
      simp only [List.mem_toFinset, List.mem_filter, Finset.mem_sdiff,
        Bool.not_eq_true', ← e1 x, ← e2 x]
      constructor
      · rintro ⟨hx, hb⟩
        refine ⟨hx, fun hc => ?_⟩
        rw [List.elem_iff.mpr hc] at hb
        cases hb
      · rintro ⟨hx, hb⟩
        refine ⟨hx, ?_⟩
        cases he : st.2.elem x
        · rfl
        · exact absurd (List.elem_iff.mp he) hb
    have hperm : List.Perm
        (List.insertionSort strOrder (st.1.filter (fun d => !st.2.elem d)))
        (st.1.filter (fun d => !st.2.elem d)) := List.perm_insertionSort _ _
    have hsorted := List.sorted_insertionSort strOrder
      (st.1.filter (fun d => !st.2.elem d))
    have hnodup := hperm.nodup_iff.mpr hLnodup
    have htf : (List.insertionSort strOrder
        (st.1.filter (fun d => !st.2.elem d))).toFinset
        = declaredDeps ms \ declaredNames ms := by
      rw [List.toFinset_eq_of_perm _ _ hperm, hLfin]
    have hperm2 := List.perm_of_nodup_nodup_toFinset_eq hnodup
      (Finset.sort_nodup strOrder (declaredDeps ms \ declaredNames ms))
      (by rw [htf, Finset.sort_toFinset])
    exact ⟨List.eq_of_perm_of_sorted hperm2 hsorted (Finset.sort_sorted _ _),
      hsorted, hnodup⟩

/-- Witness for C1 at the spec's scenario: the resolver returns
`["libbar", "libfoo"]` there (`pkg_b` excluded as local), and the theorem
applies. -/
theorem c1_resolver_sorted_set_difference_witness :
    get_rosdeps_core [exPkgA, exPkgB] = .ok ["libbar", "libfoo"] ∧
    ["libbar", "libfoo"] =
      Finset.sort strOrder (declaredDeps [exPkgA, exPkgB] \ declaredNames [exPkgA, exPkgB]) :=
  ⟨rfl, (c1_resolver_sorted_set_difference [exPkgA, exPkgB] ["libbar", "libfoo"] rfl).1⟩

theorem runManifests_nameless_error (ms : List Manifest) :
    ∀ st : List String × List String,
      (∃ m ∈ ms, namelessParsed m = true) →
      ∃ e, (runManifests ms st).1 = .error e := by
  induction ms with
  | nil =>
    intro st h
    obtain ⟨m, hm, _⟩ := h
    cases hm
  | cons m rest ih =>
    intro st h
    cases m with
    | malformed p =>
      obtain ⟨m', hm', hp'⟩ := h
      rcases List.mem_cons.mp hm' with he | hr
      · rw [he] at hp'
        simp [namelessParsed] at hp'
      · obtain ⟨e, hee⟩ := ih st ⟨m', hr, hp'⟩
        exact ⟨e, by rw [runManifests]; simpa using hee⟩
    | parsed p elems =>
      cases hn : nameText elems with
      | none =>
        refine ⟨p, ?_⟩
        rw [runManifests, hn]
      | some nm =>
        obtain ⟨m', hm', hp'⟩ := h
        rcases List.mem_cons.mp hm' with he | hr
        · rw [he] at hp'
          simp [namelessParsed, hn] at hp'
        · obtain ⟨e, hee⟩ := ih _ ⟨m', hr, hp'⟩
          refine ⟨e, ?_⟩
          rw [runManifests, hn]
          exact hee

/-- C2 counterexample: a workspace whose first manifest parses but lacks a
`name` element.  Resolution does *not* skip it: the uncaught
`AttributeError` aborts the whole call (no closure is returned, the valid
sibling `exPkgB` contributes nothing) and no diagnostic is emitted. -/
theorem c2_missing_name_counterexample :
    get_rosdeps_core [exNoName, exPkgB] = Except.error "ws/broken/package.xml" ∧
    get_rosdeps_warnings [exNoName, exPkgB] = [] :=
  ⟨rfl, rfl⟩

/-- C2 amended: a manifest that parses as XML but lacks a usable `name`
element is *not* skipped per-file — `root.find('name').text.strip()` raises
an uncaught `AttributeError` (only `ET.ParseError` is caught), so the whole
dependency resolution aborts with an error and sibling manifests contribute
nothing. -/
theorem c2_missing_name_aborts_resolution (ms : List Manifest) (m : Manifest)
    (hm : m ∈ ms) (hp : namelessParsed m = true) :
    ∃ e, get_rosdeps_core ms = Except.error e := by
  obtain ⟨e, he⟩ := runManifests_nameless_error ms (∅, ∅) ⟨m, hm, hp⟩
  refine ⟨e, ?_⟩
  rw [get_rosdeps_core, he]

/-- Witness for the amended C2 at a concrete workspace. -/
theorem c2_missing_name_aborts_resolution_witness :
    namelessParsed exNoName = true ∧
    ∃ e, get_rosdeps_core [exNoName, exPkgB] = Except.error e :=
  ⟨rfl, c2_missing_name_aborts_resolution [exNoName, exPkgB] exNoName
    (List.mem_cons_self _ _) rfl⟩

theorem runManifests_drop_malformed (p : String) (ms2 : List Manifest) :
    ∀ (ms1 : List Manifest) (st : List String × List String),
      (runManifests (ms1 ++ Manifest.malformed p :: ms2) st).1
        = (runManifests (ms1 ++ ms2) st).1 := by
  intro ms1
  induction ms1 with
  | nil =>
    intro st
    rw [List.nil_append, List.nil_append, runManifests]
  | cons m rest ih =>
    intro st
    cases m with
    | malformed q =>
      rw [List.cons_append, List.cons_append, runManifests, runManifests]
      exact ih st
    | parsed q elems =>
      rw [List.cons_append, List.cons_append, runManifests, runManifests]
      cases hn : nameText elems with
      | none => rfl
      | some nm => exact ih _

theorem runManifests_malformed_warning (p : String) (ms2 : List Manifest) :
    ∀ (ms1 : List Manifest) (st : List String × List String),
      (runManifests ms1 st).1.isOk = true →
      parseWarning p ∈ (runManifests (ms1 ++ Manifest.malformed p :: ms2) st).2 := by
  intro ms1
  induction ms1 with
  | nil =>
    intro st _
    rw [List.nil_append, runManifests]
    exact List.mem_cons_self _ _
  | cons m rest ih =>
    intro st hok
    cases m with
    | malformed q =>
      rw [runManifests] at hok
      rw [List.cons_append, runManifests]
      exact List.mem_cons_of_mem _ (ih st hok)
    | parsed q elems =>
      rw [runManifests] at hok
      rw [List.cons_append, runManifests]
      cases hn : nameText elems with
      | none => rw [hn] at hok; simp [Except.toBool] at hok
      | some nm =>
        rw [hn] at hok
        exact ih _ hok

/-- C6: a syntactically malformed manifest is skipped per-file: it changes
the outcome of the resolver not at all (it contributes neither names nor
dependencies, and extraction from every other manifest is unaffected), and
— whenever the loop reaches it, i.e. no earlier manifest aborted the run —
its skip emits the diagnostic naming the manifest. -/
theorem c6_malformed_manifest_tolerated (p : String) (ms1 ms2 : List Manifest) :
    get_rosdeps_core (ms1 ++ Manifest.malformed p :: ms2)
      = get_rosdeps_core (ms1 ++ ms2) ∧
    (∀ st : List String × List String, (runManifests ms1 st).1.isOk = true →
      parseWarning p ∈ (runManifests (ms1 ++ Manifest.malformed p :: ms2) st).2) := by
  constructor
  · rw [get_rosdeps_core, get_rosdeps_core, runManifests_drop_malformed]
  · intro st hok
    exact runManifests_malformed_warning p ms2 ms1 st hok

/-- Witness for C6 at a concrete workspace: inserting a malformed manifest
between the two valid packages leaves the closure unchanged and emits the
parse warning. -/
theorem c6_malformed_manifest_tolerated_witness :
    get_rosdeps_core [exPkgA, Manifest.malformed "ws/bad/package.xml", exPkgB]
      = get_rosdeps_core [exPkgA, exPkgB] ∧
    parseWarning "ws/bad/package.xml" ∈
      (runManifests [exPkgA, Manifest.malformed "ws/bad/package.xml", exPkgB] (∅, ∅)).2 :=
  ⟨(c6_malformed_manifest_tolerated "ws/bad/package.xml" [exPkgA] [exPkgB]).1,
   (c6_malformed_manifest_tolerated "ws/bad/package.xml" [exPkgA] [exPkgB]).2 (∅, ∅) rfl⟩

/-- C7 counterexample: a `depend` element whose text is a single space is
*not* ignored — `if dep.text:` is true for `" "`, and `" ".strip()` is the
empty string, so `""` enters the dependency set and the returned closure. -/
theorem c7_whitespace_dep_counterexample :
    get_rosdeps_core [exBlankDep] = Except.ok [""] :=
  rfl

/-- C7 amended: only the five recognized tags contribute, each element
contributing `pyStrip` of its text, and elements whose text is missing
(`None`) or the *empty string* are ignored; but an element whose text is
non-empty whitespace contributes its stripped text, which is the empty
string — so `""` can enter the declared-dependency set (and hence the
closure, as the counterexample shows).  The first conjunct ties the loop on
the `deps` set to the per-manifest contribution `manifestDeps`. -/
theorem c7_dep_elements_contribution (elems : List XmlElem) (deps : List String)
    (s : String) :
    (addDeps elems deps).toFinset = deps.toFinset ∪ manifestDeps elems ∧
    (s ∈ manifestDeps elems ↔
      ∃ e ∈ elems, e.tag ∈ depend_tags ∧
        ∃ t, e.text = some t ∧ t ≠ "" ∧ s = pyStrip t) := by
  refine ⟨addDeps_toFinset elems deps, ?_⟩
  rw [manifestDeps]
  simp only [List.mem_toFinset, List.mem_filterMap, List.mem_flatMap,
    List.mem_filter]
  constructor
  · rintro ⟨e, ⟨tag, htag, he, heq⟩, hdep⟩
    have hetag : e.tag = tag := beq_iff_eq.mp heq
    rw [depText] at hdep
    cases he' : e.text with
    | none => rw [he'] at hdep; cases hdep
    | some t =>
      rw [he'] at hdep
      by_cases ht : t = ""
      · simp [ht] at hdep
      · simp only [Option.some_bind, if_neg ht, Option.some.injEq] at hdep
        exact ⟨e, he, hetag.symm ▸ htag, t, he', ht, hdep.symm⟩
  · rintro ⟨e, he, htag, t, htext, ht, hs⟩
    refine ⟨e, ⟨e.tag, htag, he, ?_⟩, ?_⟩
    · exact beq_self_eq_true _
    · rw [depText, htext]
      simp [ht, hs]

theorem string_data_ne_nil (s : String) (h : s ≠ "") : s.data ≠ [] := by
  intro hd
  apply h
  cases s
  simp at hd
  rw [hd]

/-- When the expanded root is a leading prefix of the file path and does not
reoccur in the remainder, the virtual key is the fixed prefix followed by
the unchanged remainder. -/
theorem virtualKey_rooted (root rest : String) (h0 : root ≠ "")
    (h1 : occursIn root.data rest.data = false) :
    virtualKey root (root ++ rest) = ("ros_ws_src" ++ os_sep) ++ rest := by
  rw [virtualKey, String.data_append,
    pyReplace_append root.data rest.data _ (string_data_ne_nil root h0),
    pyReplace_of_not_occurs rest.data root.data _ h1, ← String.data_append]

/-- C3 counterexample: with expanded root `"/ws"` and the single file
`/ws/ws/f`, the context key produced by the code is
`ros_ws_src/ros_ws_src//f` — `str.replace` rewrote *both* occurrences of the
root string — whereas replacing only the leading occurrence (the spec's
`virtualKeySpec`) yields `ros_ws_src//ws/f`. -/
theorem c3_virtual_path_counterexample :
    (generate_ws_files "/ws" exRootReoccursTree false).1
      = [("ros_ws_src/ros_ws_src//f", "x")] ∧
    virtualKeySpec "/ws" "/ws/ws/f" = "ros_ws_src//ws/f" ∧
    ("ros_ws_src/ros_ws_src//f" : String) ≠ "ros_ws_src//ws/f" := by
  refine ⟨rfl, rfl, ?_⟩
  decide

/-- C3 amended: the VirtualPath key replaces *every* occurrence of the
expanded workspace-root string with `ros_ws_src` plus the separator (Python
`str.replace` semantics); when the root occurs in the file's path only as
its leading prefix, this coincides with the spec's leading-occurrence
replacement, leaving the remainder unchanged. -/
theorem c3_virtual_path_replaces_all (root rest : String) (h0 : root ≠ "")
    (h1 : occursIn root.data rest.data = false) :
    virtualKey root (root ++ rest) = ("ros_ws_src" ++ os_sep) ++ rest :=
  virtualKey_rooted root rest h0 h1

/-- Witness for the amended C3 at a concrete path. -/
theorem c3_virtual_path_replaces_all_witness :
    occursIn "/ws".data "/pkg/f.txt".data = false ∧
    virtualKey "/ws" ("/ws" ++ "/pkg/f.txt")
      = ("ros_ws_src" ++ os_sep) ++ "/pkg/f.txt" :=
  ⟨by decide, c3_virtual_path_replaces_all "/ws" "/pkg/f.txt" (by decide) (by decide)⟩

/-- C4 counterexample: from root path `"a"`, the walk yields the two
distinct files `a/ab` and `a/ros_ws_src/b`, both of which map to the virtual
key `ros_ws_src//ros_ws_src/b`; the second overwrites the first, so the
final context map has a single entry. -/
theorem c4_virtual_path_collision_counterexample :
    (get_files_from_path "a" exCollisionTree false false).map Prod.fst
      = ["a/ab", "a/ros_ws_src/b"] ∧
    ("a/ab" : String) ≠ "a/ros_ws_src/b" ∧
    virtualKey "a" "a/ab" = virtualKey "a" "a/ros_ws_src/b" ∧
    (generate_ws_files "a" exCollisionTree false).1
      = [("ros_ws_src//ros_ws_src/b", "2")] := by
  refine ⟨rfl, by decide, rfl, rfl⟩

/-- C4 amended: the source-path-to-VirtualPath mapping is injective over
paths in which the expanded root string occurs only as the leading prefix;
without that proviso two distinct source files can collide (see the
counterexample), the later one overwriting the earlier ContextMap entry. -/
theorem c4_virtual_path_injective_without_reoccurrence
    (root s1 s2 : String) (h0 : root ≠ "")
    (h1 : occursIn root.data s1.data = false)
    (h2 : occursIn root.data s2.data = false)
    (he : virtualKey root (root ++ s1) = virtualKey root (root ++ s2)) :
    root ++ s1 = root ++ s2 := by
  rw [virtualKey_rooted root s1 h0 h1, virtualKey_rooted root s2 h0 h2] at he
  have hd := congrArg String.data he
  rw [String.data_append, String.data_append] at hd
  have : s1.data = s2.data := List.append_cancel_left hd
  have : s1 = s2 := by
    cases s1
    cases s2
    exact congrArg String.mk this
  rw [this]

/-- Witness for the amended C4 at a concrete input. -/
theorem c4_virtual_path_injective_without_reoccurrence_witness :
    occursIn "/ws".data "/pkg/a.txt".data = false ∧
    "/ws" ++ "/pkg/a.txt" = ("/ws" ++ "/pkg/a.txt" : String) :=
  ⟨by decide,
   c4_virtual_path_injective_without_reoccurrence "/ws" "/pkg/a.txt" "/pkg/a.txt"
     (by decide) (by decide) (by decide) rfl⟩

mutual
theorem get_files_map_fst (path : String) (e : FSEntry) (o i : Bool) :
    (get_files_from_path path e o i).map Prod.fst
      = (walkNames o i e).map (joinList path) := by
  cases e with
  | dir nm cs =>
    rw [get_files_from_path, walkNames]
    by_cases hg : (nm == ".git") = true
    · simp [hg]
    · simp only [hg, if_false, Bool.false_eq_true]
      exact get_files_children_map_fst path cs o _
  | file nm content =>
    cases o <;> cases i <;> rfl
  | link nm target =>
    cases o <;> cases i <;> rfl

theorem get_files_children_map_fst (path : String) (cs : List FSEntry) (o i : Bool) :
    (get_files_from_children path cs o i).map Prod.fst
      = (walkNamesList o i cs).map (joinList path) := by
  cases cs with
  | nil => rw [get_files_from_children, walkNamesList]; rfl
  | cons c rest =>
    rw [get_files_from_children, walkNamesList, List.map_append, List.map_append,
      get_files_map_fst (pathJoin path c.name) c o i,
      get_files_children_map_fst path rest o i, List.map_map]
    exact rfl
end

theorem walkNamesList_mem (o i : Bool) (cs : List FSEntry) (ns : List String) :
    ns ∈ walkNamesList o i cs ↔
      ∃ c ∈ cs, ∃ ns', ns = c.name :: ns' ∧ ns' ∈ walkNames o i c := by
  induction cs with
  | nil => rw [walkNamesList]; simp
  | cons c rest ih =>
    rw [walkNamesList]
    rw [List.mem_append, List.mem_map, ih]
    constructor
    · rintro (⟨ns', hw, rfl⟩ | ⟨c', hc', ns', rfl, hw⟩)
      · exact ⟨c, List.mem_cons_self _ _, ns', rfl, hw⟩
      · exact ⟨c', List.mem_cons_of_mem _ hc', ns', rfl, hw⟩
    · rintro ⟨c', hc', ns', rfl, hw⟩
      rcases List.mem_cons.mp hc' with rfl | hr
      · exact Or.inl ⟨ns', hw, rfl⟩
      · exact Or.inr ⟨c', hr, ns', rfl, hw⟩

theorem reachesLeafIn_intro (cs : List FSEntry) (c : FSEntry) (n : String)
    (ns : List String) (hc : c ∈ cs) (hn : c.name = n)
    (hr : reachesLeaf c ns = true) : reachesLeafIn cs n ns = true := by
  induction cs with
  | nil => cases hc
  | cons d rest ih =>
    rw [reachesLeafIn]
    rcases List.mem_cons.mp hc with rfl | hm
    · simp [hn, hr]
    · simp [ih hm]

theorem reachesLeafIn_elim (cs : List FSEntry) (n : String) (ns : List String)
    (h : reachesLeafIn cs n ns = true) :
    ∃ c ∈ cs, c.name = n ∧ reachesLeaf c ns = true := by
  induction cs with
  | nil => rw [reachesLeafIn] at h; cases h
  | cons d rest ih =>
    rw [reachesLeafIn] at h
    rcases Bool.or_eq_true_iff.mp h with h1 | h2
    · rcases Bool.and_eq_true_iff.mp h1 with ⟨hn, hr⟩
      exact ⟨d, List.mem_cons_self _ _, beq_iff_eq.mp hn, hr⟩
    · obtain ⟨c, hc, hn, hr⟩ := ih h2
      exact ⟨c, List.mem_cons_of_mem _ hc, hn, hr⟩

theorem inPkgIn_intro (cs : List FSEntry) (c : FSEntry) (n : String)
    (ns : List String) (hc : c ∈ cs) (hn : c.name = n)
    (hp : inPkg c ns = true) : inPkgIn cs n ns = true := by
  induction cs with
  | nil => cases hc
  | cons d rest ih =>
    rw [inPkgIn]
    rcases List.mem_cons.mp hc with rfl | hm
    · simp [hn, hp]
    · simp [ih hm]

theorem inPkgIn_elim (cs : List FSEntry) (n : String) (ns : List String)
    (h : inPkgIn cs n ns = true) :
    ∃ c ∈ cs, c.name = n ∧ inPkg c ns = true := by
  induction cs with
  | nil => rw [inPkgIn] at h; cases h
  | cons d rest ih =>
    rw [inPkgIn] at h
    rcases Bool.or_eq_true_iff.mp h with h1 | h2
    · by_cases hn : (d.name == n) = true
      · rw [if_pos hn] at h1
        exact ⟨d, List.mem_cons_self _ _, beq_iff_eq.mp hn, h1⟩
      · rw [if_neg hn] at h1
        cases h1
    · obtain ⟨c, hc, hn, hp⟩ := ih h2
      exact ⟨c, List.mem_cons_of_mem _ hc, hn, hp⟩

theorem validTreeList_mem (cs : List FSEntry) (c : FSEntry)
    (hv : validTreeList cs = true) (hc : c ∈ cs) : validTree c = true := by
  induction cs with
  | nil => cases hc
  | cons d rest ih =>
    rw [validTreeList, Bool.and_eq_true_iff] at hv
    rcases List.mem_cons.mp hc with rfl | hm
    · exact hv.1
    · exact ih hv.2 hm

theorem name_unique (cs : List FSEntry) (c c' : FSEntry)
    (hnd : (cs.map FSEntry.name).Nodup) (hc : c ∈ cs) (hc' : c' ∈ cs)
    (hn : c.name = c'.name) : c = c' := by
  induction cs with
  | nil => cases hc
  | cons d rest ih =>
    rw [List.map_cons, List.nodup_cons] at hnd
    rcases List.mem_cons.mp hc with rfl | hm
    · rcases List.mem_cons.mp hc' with rfl | hm'
      · rfl
      · exact absurd (hn ▸ List.mem_map_of_mem FSEntry.name hm') hnd.1
    · rcases List.mem_cons.mp hc' with rfl | hm'
      · exact absurd (hn ▸ List.mem_map_of_mem FSEntry.name hm) hnd.1
      · exact ih hnd.2 hm hm'

theorem walkNames_mem : ∀ (e : FSEntry), validTree e = true → ∀ (o i : Bool)
    (ns : List String),
    ns ∈ walkNames o i e ↔
      (reachesLeaf e ns = true ∧ (o = false ∨ i = true ∨ inPkg e ns = true))
  | .file nm content, _, o, i, ns => by
    cases o <;> cases i <;> cases ns <;>
      simp [walkNames, reachesLeaf, inPkg]
  | .link nm target, _, o, i, ns => by
    cases o <;> cases i <;> cases ns <;>
      simp [walkNames, reachesLeaf, inPkg]
  | .dir nm cs, hv, o, i, ns => by
    rw [validTree, Bool.and_eq_true_iff] at hv
    have hnd' : (cs.map FSEntry.name).Nodup := of_decide_eq_true hv.1
    have hvl := hv.2
    rw [walkNames]
    by_cases hg : (nm == ".git") = true
    · rw [if_pos hg]
      cases ns with
      | nil => simp [show reachesLeaf (FSEntry.dir nm cs) [] = false from rfl]
      | cons n ns' => simp [reachesLeaf, hg]
    · rw [if_neg hg]
      rw [walkNamesList_mem]
      cases ns with
      | nil =>
        simp [show reachesLeaf (FSEntry.dir nm cs) [] = false from rfl]
      | cons n ns' =>
        constructor
        · rintro ⟨c, hc, t, heq, hw⟩
          injection heq with h1 h2
          subst h2
          subst h1
          rw [walkNames_mem c (validTreeList_mem cs c hvl hc) o _ _] at hw
          refine ⟨?_, ?_⟩
          · rw [reachesLeaf, Bool.and_eq_true_iff]
            exact ⟨by simp [hg], reachesLeafIn_intro cs c c.name ns' hc rfl hw.1⟩
          · rcases hw.2 with ho | hi | hp
            · exact Or.inl ho
            · cases i with
              | true => exact Or.inr (Or.inl rfl)
              | false =>
                refine Or.inr (Or.inr ?_)
                rw [inPkg, Bool.or_eq_true_iff]
                exact Or.inl (by simpa using hi)
            · refine Or.inr (Or.inr ?_)
              rw [inPkg, Bool.or_eq_true_iff]
              exact Or.inr (inPkgIn_intro cs c c.name ns' hc rfl hp)
        · rintro ⟨hr, hdisj⟩
          rw [reachesLeaf, Bool.and_eq_true_iff] at hr
          obtain ⟨c, hc, hname, hrc⟩ := reachesLeafIn_elim cs n ns' hr.2
          refine ⟨c, hc, ns', by rw [hname], ?_⟩
          rw [walkNames_mem c (validTreeList_mem cs c hvl hc) o _ _]
          refine ⟨hrc, ?_⟩
          rcases hdisj with ho | hi | hp
          · exact Or.inl ho
          · subst hi
            exact Or.inr (Or.inl rfl)
          · rw [inPkg, Bool.or_eq_true_iff] at hp
            rcases hp with hpe | hpn
            · cases i with
              | true => exact Or.inr (Or.inl rfl)
              | false => exact Or.inr (Or.inl (by simpa using hpe))
            · obtain ⟨c', hc', hn', hp'⟩ := inPkgIn_elim cs n ns' hpn
              have hcc : c' = c := name_unique cs c' c hnd' hc' hc (hn'.trans hname.symm)
              subst hcc
              exact Or.inr (Or.inr hp')
termination_by e => sizeOf e
decreasing_by
  all_goals
    simp_wf
    have := List.sizeOf_lt_of_mem hc
    omega

theorem walkNames_no_git : ∀ (e : FSEntry) (o i : Bool) (ns : List String),
    ns ∈ walkNames o i e →
    ((∀ nm cs, e = FSEntry.dir nm cs → nm ≠ ".git") ∧ ".git" ∉ ns.dropLast)
  | .file nm content, o, i, ns => by
    intro h
    have hns : ns = [] := by
      cases o <;> cases i <;> simp [walkNames] at h <;> exact h
    subst hns
    exact ⟨fun _ _ hc => FSEntry.noConfusion hc, by simp⟩
  | .link nm target, o, i, ns => by
    intro h
    have hns : ns = [] := by
      cases o <;> cases i <;> simp [walkNames] at h <;> exact h
    subst hns
    exact ⟨fun _ _ hc => FSEntry.noConfusion hc, by simp⟩
  | .dir nm cs, o, i, ns => by
    intro h
    rw [walkNames] at h
    by_cases hg : (nm == ".git") = true
    · rw [if_pos hg] at h
      cases h
    · rw [if_neg hg] at h
      rw [walkNamesList_mem] at h
      obtain ⟨c, hc, t, heq, hw⟩ := h
      subst heq
      have ih := walkNames_no_git c o _ t hw
      refine ⟨?_, ?_⟩
      · intro nm' cs' he
        injection he with e1 _
        subst e1
        exact fun hh => hg (beq_iff_eq.mpr hh)
      · cases t with
        | nil => simp
        | cons y ys =>
          rw [List.dropLast_cons₂]
          simp only [List.mem_cons, not_or]
          refine ⟨?_, ?_⟩
          · cases c with
            | file cn cc =>
              exfalso
              have : (y :: ys : List String) = [] := by
                cases o <;> cases i <;> simp [walkNames] at hw
              cases this
            | link cn ct =>
              exfalso
              have : (y :: ys : List String) = [] := by
                cases o <;> cases i <;> simp [walkNames] at hw
              cases this
            | dir cn cc =>
              exact fun hh => ih.1 cn cc rfl hh.symm
          · exact ih.2
termination_by e => sizeOf e
decreasing_by
  all_goals
    simp_wf
    have := List.sizeOf_lt_of_mem hc
    omega

/-- C5 counterexample: on `exMixedTree`, the file `r/pkg/.git/config` lies
beneath the package directory `pkg` (which contains the manifest
`package.xml`) yet is excluded in *both* filter modes (the `.git` subtree is
pruned), and `r/odd/f2` is included with `packagesOnly=true` although no
manifest *file* governs it (only a directory named `package.xml`).  Both
directions of the claim, and its `packagesOnly=false` clause, fail here. -/
theorem c5_packages_only_counterexample :
    (get_files_from_path "r" exMixedTree true false).map Prod.fst
      = ["r/pkg/package.xml", "r/pkg/src1", "r/odd/f2"] ∧
    (get_files_from_path "r" exMixedTree false false).map Prod.fst
      = ["r/pkg/package.xml", "r/pkg/src1", "r/odd/f2", "r/loose"] ∧
    "r/pkg/.git/config" ∉
      (get_files_from_path "r" exMixedTree true false).map Prod.fst ∧
    "r/pkg/.git/config" ∉
      (get_files_from_path "r" exMixedTree false false).map Prod.fst ∧
    "r/odd/f2" ∈ (get_files_from_path "r" exMixedTree true false).map Prod.fst := by
  refine ⟨rfl, rfl, by decide, by decide, by decide⟩

/-- C5 amended: the yielded path strings are `joinList` of the walker's name
chains, and — on trees with no repeated sibling names — a name chain is
yielded with `packagesOnly=true` exactly when it addresses a leaf through
non-`.git` directories (`reachesLeaf`) *and* some directory on the chain
directly contains an entry (file, directory or link) named `package.xml`
(`inPkg`); with `packagesOnly=false`, exactly when it addresses such a leaf.
Files under a `.git` directory are excluded in both modes, and a
`package.xml` entry of any kind makes its subtree selected. -/
theorem c5_packages_only_selection :
    (∀ (o i : Bool) (path : String) (e : FSEntry),
      (get_files_from_path path e o i).map Prod.fst
        = (walkNames o i e).map (joinList path)) ∧
    (∀ e : FSEntry, validTree e = true → ∀ ns : List String,
      (ns ∈ walkNames true false e ↔
        (reachesLeaf e ns = true ∧ inPkg e ns = true)) ∧
      (ns ∈ walkNames false false e ↔ reachesLeaf e ns = true)) := by
  refine ⟨fun o i path e => get_files_map_fst path e o i, fun e hv ns => ⟨?_, ?_⟩⟩
  · rw [walkNames_mem e hv true false ns]
    simp
  · rw [walkNames_mem e hv false false ns]
    simp

/-- Witness for C5's characterization on the concrete mixed workspace. -/
theorem c5_packages_only_selection_witness :
    validTree exMixedTree = true ∧
    (["pkg", "src1"] ∈ walkNames true false exMixedTree ↔
      (reachesLeaf exMixedTree ["pkg", "src1"] = true ∧
        inPkg exMixedTree ["pkg", "src1"] = true)) :=
  ⟨by decide,
   (c5_packages_only_selection.2 exMixedTree (by decide) ["pkg", "src1"]).1⟩

/-- C9: `.git` directories are pruned whole — the walker emits nothing at
all from a directory whose base name is `.git` (first conjunct, at the
source's walker), and on any tree, any yielded name chain passes through no
directory named `.git`: neither the walk root nor any intermediate
directory on the chain is named `.git` (the leaf itself may carry that name
— only directories are pruned). -/
theorem c9_git_directories_never_emitted :
    (∀ (o i : Bool) (path : String) (cs : List FSEntry),
      get_files_from_path path (FSEntry.dir ".git" cs) o i = []) ∧
    (∀ (o i : Bool) (e : FSEntry) (ns : List String), ns ∈ walkNames o i e →
      ((∀ nm cs, e = FSEntry.dir nm cs → nm ≠ ".git") ∧ ".git" ∉ ns.dropLast)) := by
  refine ⟨fun o i path cs => ?_, fun o i e ns h => walkNames_no_git e o i ns h⟩
  rw [get_files_from_path]
  simp

/-- Witness for C9 on the concrete mixed workspace. -/
theorem c9_git_directories_never_emitted_witness :
    (["pkg", "src1"] ∈ walkNames true false exMixedTree) ∧
    ".git" ∉ (["pkg", "src1"] : List String).dropLast :=
  ⟨by decide,
   (c9_git_directories_never_emitted.2 true false exMixedTree ["pkg", "src1"]
     (by decide)).2⟩

/-- C10: the walker's package test `os.path.exists(path + '/package.xml')`
is satisfied by an entry of any kind — in particular by a *directory* named
`package.xml` (first conjunct) — while the resolver's collection only reacts
to `package.xml` listed among `os.walk`'s *files* (second conjunct).  On
`exPkgDirTree` the packages-only walk therefore includes `ws/odd/f2`, yet no
manifest is collected at all and the closure of an empty manifest list is
empty. -/
theorem c10_package_dir_selected_but_unparsed :
    (∀ (cs rest : List FSEntry),
      hasPkgEntry (FSEntry.dir "package.xml" cs :: rest) = true) ∧
    (∀ (cs rest : List FSEntry),
      hasManifestFile (FSEntry.dir "package.xml" cs :: rest)
        = hasManifestFile rest) ∧
    (get_files_from_path "ws" exPkgDirTree true false).map Prod.fst
      = ["ws/odd/f2"] ∧
    collect_package_xmls "ws" exPkgDirTree = [] ∧
    get_rosdeps_core [] = Except.ok [] := by
  refine ⟨fun cs rest => ?_, fun cs rest => ?_, rfl, rfl, rfl⟩
  · simp [hasPkgEntry, FSEntry.name]
  · simp [hasManifestFile, FSEntry.isDir, FSEntry.name]

theorem dictInsert_mem (m : List (String × String)) (k v : String)
    (kv : String × String) (h : kv ∈ dictInsert m k v) :
    kv ∈ m ∨ kv = (k, v) := by
  induction m with
  | nil =>
    rw [dictInsert] at h
    rcases List.mem_singleton.mp h with rfl
    exact Or.inr rfl
  | cons p rest ih =>
    rw [dictInsert] at h
    by_cases hk : p.1 = k
    · rw [if_pos hk] at h
      rcases List.mem_cons.mp h with rfl | hm
      · exact Or.inr (by rw [hk])
      · exact Or.inl (List.mem_cons_of_mem _ hm)
    · rw [if_neg hk] at h
      rcases List.mem_cons.mp h with rfl | hm
      · exact Or.inl (List.mem_cons_self _ _)
      · rcases ih hm with h1 | h2
        · exact Or.inl (List.mem_cons_of_mem _ h1)
        · exact Or.inr h2

theorem dictInsert_key_mem (m : List (String × String)) (k v : String) :
    k ∈ (dictInsert m k v).map Prod.fst := by
  induction m with
  | nil => rw [dictInsert]; exact List.mem_cons_self _ _
  | cons p rest ih =>
    rw [dictInsert]
    by_cases hk : p.1 = k
    · rw [if_pos hk, List.map_cons]
      exact hk ▸ List.mem_cons_self _ _
    · rw [if_neg hk, List.map_cons]
      exact List.mem_cons_of_mem _ ih

theorem dictInsert_keys_mono (m : List (String × String)) (k v k' : String)
    (h : k' ∈ m.map Prod.fst) : k' ∈ (dictInsert m k v).map Prod.fst := by
  induction m with
  | nil => cases h
  | cons p rest ih =>
    rw [dictInsert]
    rw [List.map_cons] at h
    by_cases hk : p.1 = k
    · rw [if_pos hk, List.map_cons]
      exact h
    · rw [if_neg hk, List.map_cons]
      rcases List.mem_cons.mp h with rfl | hm
      · exact List.mem_cons_self _ _
      · exact List.mem_cons_of_mem _ (ih hm)

theorem wsfold_warnings (dir : String) :
    ∀ (L : List (String × FSEntry)) (acc : List (String × String) × List String),
      (L.foldl (wsStep dir) acc).2 = acc.2 ++ L.filterMap warnOf := by
  intro L
  induction L with
  | nil => intro acc; simp
  | cons pe rest ih =>
    intro acc
    rw [List.foldl_cons, ih, List.filterMap_cons]
    rcases pe with ⟨p, ent⟩
    cases ent with
    | file n c => simp [wsStep, warnOf]
    | dir n cs => simp [wsStep, warnOf]
    | link n t => simp [wsStep, warnOf]

theorem wsfold_mem_map (dir : String) :
    ∀ (L : List (String × FSEntry)) (acc : List (String × String) × List String)
      (kv : String × String), kv ∈ (L.foldl (wsStep dir) acc).1 →
      kv ∈ acc.1 ∨ ∃ pe ∈ L, ∃ nm c,
        pe.2 = FSEntry.file nm c ∧ kv = (virtualKey dir pe.1, c) := by
  intro L
  induction L with
  | nil => intro acc kv h; exact Or.inl h
  | cons pe rest ih =>
    intro acc kv h
    rw [List.foldl_cons] at h
    rcases pe with ⟨p, ent⟩
    cases ent with
    | file n c =>
      rcases ih _ kv h with h1 | ⟨pe', hpe', nm', c', he', hkv⟩
      · rcases dictInsert_mem acc.1 (virtualKey dir p) c kv h1 with h2 | h2
        · exact Or.inl h2
        · exact Or.inr ⟨(p, .file n c), List.mem_cons_self _ _, n, c, rfl, h2⟩
      · exact Or.inr ⟨pe', List.mem_cons_of_mem _ hpe', nm', c', he', hkv⟩
    | dir n cs =>
      rcases ih _ kv h with h1 | ⟨pe', hpe', nm', c', he', hkv⟩
      · exact Or.inl h1
      · exact Or.inr ⟨pe', List.mem_cons_of_mem _ hpe', nm', c', he', hkv⟩
    | link n t =>
      rcases ih _ kv h with h1 | ⟨pe', hpe', nm', c', he', hkv⟩
      · exact Or.inl h1
      · exact Or.inr ⟨pe', List.mem_cons_of_mem _ hpe', nm', c', he', hkv⟩

theorem wsfold_keys_mono (dir : String) :
    ∀ (L : List (String × FSEntry)) (acc : List (String × String) × List String)
      (k : String), k ∈ acc.1.map Prod.fst →
      k ∈ (L.foldl (wsStep dir) acc).1.map Prod.fst := by
  intro L
  induction L with
  | nil => intro acc k h; exact h
  | cons pe rest ih =>
    intro acc k h
    rw [List.foldl_cons]
    rcases pe with ⟨p, ent⟩
    cases ent with
    | file n c => exact ih _ k (dictInsert_keys_mono acc.1 (virtualKey dir p) c k h)
    | dir n cs => exact ih _ k h
    | link n t => exact ih _ k h

theorem wsfold_file_key (dir : String) :
    ∀ (L : List (String × FSEntry)) (acc : List (String × String) × List String)
      (pe : String × FSEntry), pe ∈ L → ∀ nm c, pe.2 = FSEntry.file nm c →
      virtualKey dir pe.1 ∈ (L.foldl (wsStep dir) acc).1.map Prod.fst := by
  intro L
  induction L with
  | nil => intro acc pe h; cases h
  | cons pe0 rest ih =>
    intro acc pe h nm c hf
    rw [List.foldl_cons]
    rcases List.mem_cons.mp h with rfl | hm
    · rcases pe with ⟨p, ent⟩
      cases hf
      exact wsfold_keys_mono dir rest _ (virtualKey dir p)
        (dictInsert_key_mem acc.1 (virtualKey dir p) c)
    · exact ih _ pe hm nm c hf

/-- C8: over any workspace and either filter mode, (1) the diagnostics of
`generate_ws_files` are exactly the symlink warnings of the walked entries,
in walk order — each names the link's path and target and the walk never
fails; (2) every context-map entry originates from a walked *regular file*
(so a symlink is never emitted as an entry); (3) every walked regular file's
virtual key is present among the map's keys (all non-link files still
appear). -/
theorem c8_symlinks_skipped_with_diagnostic (dir : String) (e : FSEntry) (o : Bool) :
    (generate_ws_files dir e o).2
      = (get_files_from_path dir e o false).filterMap warnOf ∧
    (∀ kv ∈ (generate_ws_files dir e o).1,
      ∃ pe ∈ get_files_from_path dir e o false, ∃ nm c,
        pe.2 = FSEntry.file nm c ∧ kv = (virtualKey dir pe.1, c)) ∧
    (∀ pe ∈ get_files_from_path dir e o false, ∀ nm c,
      pe.2 = FSEntry.file nm c →
      virtualKey dir pe.1 ∈ (generate_ws_files dir e o).1.map Prod.fst) := by
  refine ⟨?_, ?_, ?_⟩
  · rw [generate_ws_files, wsfold_warnings dir _ ([], [])]
    rfl
  · intro kv h
    rw [generate_ws_files] at h
    rcases wsfold_mem_map dir _ ([], []) kv h with h1 | h2
    · cases h1
    · exact h2
  · intro pe h nm c hf
    rw [generate_ws_files]
    exact wsfold_file_key dir _ ([], []) pe h nm c hf

/-- Witness for C8 on a workspace with one symlink: the diagnostic names
the link and its target, the map holds exactly the two regular files. -/
theorem c8_symlinks_skipped_with_diagnostic_witness :
    (generate_ws_files "ws" exSymlinkTree true).2
      = (get_files_from_path "ws" exSymlinkTree true false).filterMap warnOf ∧
    (generate_ws_files "ws" exSymlinkTree true).2
      = [linkWarning "ws/pkg/lnk" "tgt"] ∧
    (generate_ws_files "ws" exSymlinkTree true).1
      = [("ros_ws_src//pkg/package.xml", "x"), ("ros_ws_src//pkg/a", "1")] :=
  ⟨(c8_symlinks_skipped_with_diagnostic "ws" exSymlinkTree true).1, rfl, rfl⟩
